import Mathlib

/-!
Verification of the fixed width unsigned integer type `tsl::uint_n<N, UINT_TYPE>`
from `include/tsl/uint_n.h`.

The storage `std::array<uint_type, (N + S - 1) / S>` is embedded as a
`List Nat` (most significant word first, as in the source); machine words of
the `S` bit type `uint_type` are natural numbers below `2 ^ S`, and every
word level operation that can overflow takes an explicit `% 2 ^ S`.
-/

namespace tsl

/-- Number of storage words, mirroring the array size `(N + S - 1) / S`. -/
def wordCount (N S : Nat) : Nat := (N + S - 1) / S

/-- Shallow embedding of `tsl::uint_n<BITS_COUNT, UINT_TYPE>`: the member
`storage_type bits`, most significant word at index 0. -/
structure uint_n (N S : Nat) where
  bits : List Nat
deriving DecidableEq

namespace uint_n

/-- Well formed values: the storage has exactly `wordCount N S` words (the
array size is fixed in C++) and each word fits in `S` bits (it has type
`uint_type`). -/
def Wf {N S : Nat} (v : uint_n N S) : Prop :=
  v.bits.length = wordCount N S ∧ ∀ w ∈ v.bits, w < 2 ^ S

instance {N S : Nat} (v : uint_n N S) : Decidable v.Wf := by
  unfold Wf; exact inferInstance

/-- Value initialised `uint_n{}`: all words zero.  This models the default
constructed state the tests exercise (`uint_n<11> x{};`). -/
def zero (N S : Nat) : uint_n N S := ⟨List.replicate (wordCount N S) 0⟩

/-- Constructor `uint_n(uint_type x)`: value initialises `bits` to zero and
then assigns `bits.back() = x`. -/
def ofWord (N S : Nat) (x : Nat) : uint_n N S :=
  ⟨(List.replicate (wordCount N S) 0).set (wordCount N S - 1) x⟩

/-- Variadic constructor `uint_n(Args... args)`: copies the arguments, most
significant first, straight into `bits`.  Its `enable_if` demands more than
one argument and exactly `wordCount N S` of them; those constraints appear
as hypotheses of the theorems about it. -/
def ofWords (N S : Nat) (ws : List Nat) : uint_n N S := ⟨ws⟩

/-- Member `test(pos)`: the word read is
`bits[bits.size() - pos / S - 1]`, the result is the `bool` conversion of
its bitwise and with `uint_type(1) << (pos % S)`. -/
def test {N S : Nat} (v : uint_n N S) (pos : Nat) : Bool :=
  let local_pos := pos % S
  let global_pos := pos / S
  ((v.bits.getD (v.bits.length - global_pos - 1) 0) &&& (1 <<< local_pos)) != 0

/-- Member `set(pos)`: ors `uint_type(1) << (pos % S)` into the word at index
`bits.size() - pos / S - 1`. -/
def setBit {N S : Nat} (v : uint_n N S) (pos : Nat) : uint_n N S :=
  let local_pos := pos % S
  let global_pos := pos / S
  let i := v.bits.length - global_pos - 1
  ⟨v.bits.set i ((v.bits.getD i 0) ||| (1 <<< local_pos))⟩

/-- Member `unset(pos)`: ands the addressed word with
`~(uint_type(1) << (pos % S))`; the `S` bit complement is written as xor
with the all ones word `2 ^ S - 1`. -/
def unset {N S : Nat} (v : uint_n N S) (pos : Nat) : uint_n N S :=
  let local_pos := pos % S
  let global_pos := pos / S
  let i := v.bits.length - global_pos - 1
  ⟨v.bits.set i ((v.bits.getD i 0) &&& ((2 ^ S - 1) ^^^ (1 <<< local_pos)))⟩

end uint_n

/-- One destination word of `operator<<=`: the loop body for index `i` runs
`bits[i] = bits[i + upper] << shift` (an `S` bit word, hence the `% 2 ^ S`)
followed by `bits[i] |= bits[i + lower] >> (S - shift)`; an out of bounds
upper read zeroes the word, an out of bounds lower read adds nothing.  The
second statement reads only index `i + lower > i`, so both statements see
the same list and fusing them into one value is exact.  `W` is
`bits.size()`. -/
def shlWord (S pos W : Nat) (b : List Nat) (i : Nat) : Nat :=
  let upper := pos / S
  let lower := upper + 1
  let shift := pos % S
  if i + upper < W then
    let w := ((b.getD (i + upper) 0) <<< shift) % 2 ^ S
    if i + lower < W then w ||| ((b.getD (i + lower) 0) >>> (S - shift)) else w
  else 0

/-- The loop of `operator<<=`: `i` runs upward from 0 to `W - 1`, updating
`bits[i]` in place; every read of an iteration is at an index at or above
its own `i`.  The first argument is fuel, started at `W`. -/
def shlLoop (S pos W : Nat) : Nat → List Nat → Nat → List Nat
  | 0, b, _ => b
  | fuel + 1, b, i =>
    if i < W then shlLoop S pos W fuel (b.set i (shlWord S pos W b i)) (i + 1) else b

namespace uint_n

/-- Operator `<<=`; operator `<<` copies the value and applies `<<=`, so both
forms are this one function. -/
def shl {N S : Nat} (v : uint_n N S) (pos : Nat) : uint_n N S :=
  ⟨shlLoop S pos v.bits.length v.bits.length v.bits 0⟩

/-- Operators `&=` and `&`: word wise bitwise and across the storage. -/
def land {N S : Nat} (v rhs : uint_n N S) : uint_n N S :=
  ⟨List.zipWith (fun a b => a &&& b) v.bits rhs.bits⟩

end uint_n

/-- The loop of prefix `operator--` walks storage indices from last (least
significant) to first: a nonzero word is decremented and the loop breaks,
a zero word wraps to the all ones word (`uint_type` underflow) and the
borrow continues.  This helper performs that walk on the reversed, least
significant first, word list. -/
def decWords (S : Nat) : List Nat → List Nat
  | [] => []
  | w :: ws => if w ≠ 0 then (w - 1) :: ws else (2 ^ S - 1) :: decWords S ws

namespace uint_n

/-- Prefix `operator--`. -/
def dec {N S : Nat} (v : uint_n N S) : uint_n N S :=
  ⟨(decWords S v.bits.reverse).reverse⟩

end uint_n

/-- Fuel driven bit count; `builtin_popcount` supplies enough fuel. -/
def popcountAux : Nat → Nat → Nat
  | 0, _ => 0
  | fuel + 1, x => if x = 0 then 0 else x % 2 + popcountAux fuel (x / 2)

/-- Model of the hardware primitive behind `builtin_popcount`
(`__builtin_popcountll`): the number of set bits of `x`. -/
def builtin_popcount (x : Nat) : Nat := popcountAux x x

/-- The accumulation loop of `popcount` over the words after the first. -/
def sumPop : List Nat → Nat
  | [] => 0
  | w :: ws => builtin_popcount w + sumPop ws

/-- Free function `popcount(x)`: `first = N % S ? N % S : S`; the
contribution of word 0 is `0` when `first == S` and otherwise the counted
bits of `((uint_type(1) << first) - 1) & bits[0]`; every later word is
counted in full. -/
def popcount {N S : Nat} (x : uint_n N S) : Nat :=
  let first := if N % S ≠ 0 then N % S else S
  let ret := if first = S then 0
             else builtin_popcount (((1 <<< first) - 1) &&& x.bits.getD 0 0)
  ret + sumPop (x.bits.drop 1)

/-- Base `2 ^ S` value of a least significant first word list. -/
def valLE (S : Nat) : List Nat → Nat
  | [] => 0
  | w :: ws => w + 2 ^ S * valLE S ws

/-- The value held by all `W * S` stored bits of `v`, least significant
word last in storage, so the reversed list is least significant first. -/
def storedValue {N S : Nat} (v : uint_n N S) : Nat := valLE S v.bits.reverse

/-- The logical `N` bit value of `v`: the sum of `2 ^ pos` over the set
logical bit positions, i.e. exactly what `test` exposes. -/
def logicalValue {N S : Nat} (v : uint_n N S) : Nat :=
  ∑ pos ∈ Finset.range N, if v.test pos then 2 ^ pos else 0

/-! ### List access helpers -/

lemma getD_ge (l : List Nat) (j : Nat) (h : l.length ≤ j) : l.getD j 0 = 0 := by
  simp [List.getElem?_eq_none h]

lemma getD_lt (l : List Nat) (j : Nat) (h : j < l.length) : l.getD j 0 = l[j] := by
  simp [List.getElem?_eq_getElem h]

lemma getD_mem (l : List Nat) (j : Nat) (h : j < l.length) : l.getD j 0 ∈ l := by
  rw [getD_lt l j h]; exact List.getElem_mem h

lemma getD_lt_two_pow {S : Nat} (l : List Nat) (h : ∀ w ∈ l, w < 2 ^ S) (j : Nat) :
    l.getD j 0 < 2 ^ S := by
  rcases Nat.lt_or_ge j l.length with hj | hj
  · exact h _ (getD_mem l j hj)
  · rw [getD_ge l j hj]; exact Nat.two_pow_pos S

lemma getD_set_self (l : List Nat) (i x : Nat) (h : i < l.length) :
    (l.set i x).getD i 0 = x := by
  simp [List.getElem?_set_self h]

lemma getD_set_ne (l : List Nat) (i j x : Nat) (h : i ≠ j) :
    (l.set i x).getD j 0 = l.getD j 0 := by
  simp [List.getElem?_set_ne h]

lemma getD_reverse (l : List Nat) (j : Nat) (h : j < l.length) :
    l.reverse.getD j 0 = l.getD (l.length - 1 - j) 0 := by
  simp [List.getElem?_reverse h]

lemma list_ext_getD (l₁ l₂ : List Nat) (hlen : l₁.length = l₂.length)
    (h : ∀ j, j < l₁.length → l₁.getD j 0 = l₂.getD j 0) : l₁ = l₂ := by
  apply List.ext_getElem hlen
  intro j h₁ h₂
  have := h j h₁
  rwa [getD_lt l₁ j h₁, getD_lt l₂ j h₂] at this

/-! ### Arithmetic helpers about wordCount -/

lemma wordCount_pos {N S : Nat} (hN : 0 < N) (hS : 0 < S) : 0 < wordCount N S := by
  unfold wordCount
  rw [Nat.pos_iff_ne_zero, Ne, Nat.div_eq_zero_iff hS]
  omega

lemma le_wordCount_mul {N S : Nat} (hN : 0 < N) (hS : 0 < S) : N ≤ wordCount N S * S := by
  have h := Nat.div_add_mod (N + S - 1) S
  have h2 : (N + S - 1) % S < S := Nat.mod_lt _ hS
  unfold wordCount
  rw [Nat.mul_comm]
  omega

lemma wordCount_pred_mul_lt {N S : Nat} (hN : 0 < N) (hS : 0 < S) :
    (wordCount N S - 1) * S < N := by
  have hpos := wordCount_pos hN hS
  have h := Nat.div_add_mod (N + S - 1) S
  have h2 : (N + S - 1) % S < S := Nat.mod_lt _ hS
  have h3 : (wordCount N S - 1) * S = wordCount N S * S - S := by
    rw [Nat.sub_mul, Nat.one_mul]
  have h4 : wordCount N S * S = S * wordCount N S := Nat.mul_comm _ _
  unfold wordCount at *
  omega

lemma div_lt_wordCount {N S pos : Nat} (hN : 0 < N) (hS : 0 < S) (hpos : pos < N) :
    pos / S < wordCount N S := by
  rw [Nat.div_lt_iff_lt_mul hS]
  exact Nat.lt_of_lt_of_le hpos (le_wordCount_mul hN hS)

lemma wordCount_cases {N S : Nat} (hN : 0 < N) (hS : 0 < S) :
    (N % S = 0 → wordCount N S = N / S) ∧ (N % S ≠ 0 → wordCount N S = N / S + 1) := by
  have h1 : wordCount N S = (N - 1) / S + 1 := by
    unfold wordCount
    rw [show N + S - 1 = (N - 1) + S by omega, Nat.add_div_right _ hS]
  have h2 : N / S = (N - 1) / S + if S ∣ N then 1 else 0 := by
    have h2a := Nat.succ_div (N - 1) S
    rwa [show N - 1 + 1 = N by omega] at h2a
  have h3 : S ∣ N ↔ N % S = 0 := Nat.dvd_iff_mod_eq_zero
  constructor
  · intro hz
    rw [h1, h2, if_pos (h3.mpr hz)]
  · intro hnz
    rw [h1, h2, if_neg (fun hd => hnz (h3.mp hd))]

/-! ### Bit access through valLE -/

lemma and_one_shl (x l : Nat) : ((x &&& (1 <<< l)) != 0) = x.testBit l := by
  rw [Nat.one_shiftLeft, Nat.and_two_pow]
  cases h : x.testBit l <;> simp [Nat.two_pow_pos l, Nat.pos_iff_ne_zero]

lemma valLE_lt {S : Nat} (l : List Nat) (h : ∀ w ∈ l, w < 2 ^ S) :
    valLE S l < 2 ^ (l.length * S) := by
  induction l with
  | nil => simp [valLE]
  | cons w ws ih =>
    have hw : w < 2 ^ S := h w (by simp)
    have hR : valLE S ws < 2 ^ (ws.length * S) := ih (fun x hx => h x (by simp [hx]))
    have hlen : (w :: ws).length * S = S + ws.length * S := by
      simp [List.length_cons]; ring
    rw [valLE, hlen, pow_add]
    calc w + 2 ^ S * valLE S ws < 2 ^ S + 2 ^ S * valLE S ws := by omega
      _ = 2 ^ S * (valLE S ws + 1) := by ring
      _ ≤ 2 ^ S * 2 ^ (ws.length * S) := Nat.mul_le_mul_left _ (by omega)

lemma valLE_testBit {S : Nat} (hS : 0 < S) (l : List Nat) (h : ∀ w ∈ l, w < 2 ^ S)
    (p : Nat) : (valLE S l).testBit p = (l.getD (p / S) 0).testBit (p % S) := by
  induction l generalizing p with
  | nil => simp [valLE]
  | cons w ws ih =>
    have hw : w < 2 ^ S := h w (by simp)
    rw [valLE]
    rcases Nat.lt_or_ge p S with hp | hp
    · rw [Nat.div_eq_of_lt hp, Nat.mod_eq_of_lt hp, List.getD_cons_zero]
      have hmodS : (w + 2 ^ S * valLE S ws) % 2 ^ S = w := by
        rw [Nat.add_mul_mod_self_left, Nat.mod_eq_of_lt hw]
      have hbit := Nat.testBit_mod_two_pow (w + 2 ^ S * valLE S ws) S p
      rw [hmodS, decide_eq_true hp, Bool.true_and] at hbit
      exact hbit.symm
    · have hdiv : p / S = (p - S) / S + 1 := by
        conv_lhs => rw [show p = (p - S) + S by omega]
        rw [Nat.add_div_right _ hS]
      have hmod : p % S = (p - S) % S := by
        conv_lhs => rw [show p = (p - S) + S by omega]
        rw [Nat.add_mod_right]
      rw [hdiv, hmod, List.getD_cons_succ]
      rw [← ih (fun x hx => h x (by simp [hx])) (p - S)]
      have hq : (w + 2 ^ S * valLE S ws) >>> S = valLE S ws := by
        rw [Nat.shiftRight_eq_div_pow,
          Nat.add_mul_div_left _ _ (Nat.two_pow_pos S), Nat.div_eq_of_lt hw,
          Nat.zero_add]
      conv_rhs => rw [← hq, Nat.testBit_shiftRight]
      congr 1
      omega

lemma test_eq_testBit {N S : Nat} (hS : 0 < S) (v : uint_n N S)
    (hw : ∀ w ∈ v.bits, w < 2 ^ S) (p : Nat) (hp : p / S < v.bits.length) :
    v.test p = (storedValue v).testBit p := by
  unfold uint_n.test storedValue
  rw [and_one_shl]
  rw [valLE_testBit hS _ (fun x hx => hw x (List.mem_reverse.mp hx)) p]
  rw [getD_reverse _ _ (by simpa using hp)]
  have : v.bits.length - p / S - 1 = v.bits.length - 1 - p / S := by omega
  rw [this]

lemma storedValue_lt {N S : Nat} (v : uint_n N S) (hw : ∀ w ∈ v.bits, w < 2 ^ S) :
    storedValue v < 2 ^ (v.bits.length * S) := by
  have := valLE_lt (S := S) v.bits.reverse (fun x hx => hw x (List.mem_reverse.mp hx))
  simpa [storedValue] using this

lemma sum_ite_testBit (x n : Nat) :
    (∑ i ∈ Finset.range n, if x.testBit i then 2 ^ i else 0) = x % 2 ^ n := by
  induction n with
  | zero => simp [Nat.mod_one]
  | succ n ih =>
    rw [Finset.sum_range_succ, ih]
    have h1 : x % 2 ^ (n + 1) = x % 2 ^ n + 2 ^ n * (x / 2 ^ n % 2) := by
      rw [pow_succ]
      exact Nat.mod_mul
    rw [h1]
    congr 1
    rcases Nat.mod_two_eq_zero_or_one (x / 2 ^ n) with h | h <;>
      rw [Nat.testBit_to_div_mod, h] <;> simp

lemma logicalValue_eq_mod {N S : Nat} (hN : 0 < N) (hS : 0 < S) (v : uint_n N S)
    (hv : v.Wf) : logicalValue v = storedValue v % 2 ^ N := by
  unfold logicalValue
  rw [← sum_ite_testBit (storedValue v) N]
  apply Finset.sum_congr rfl
  intro pos hpos
  rw [test_eq_testBit hS v hv.2 pos]
  rw [hv.1]
  exact div_lt_wordCount hN hS (Finset.mem_range.mp hpos)

/-! ### Characterisation of the shift loop -/

lemma shlLoop_length (S pos W : Nat) :
    ∀ fuel (b : List Nat) (i : Nat), (shlLoop S pos W fuel b i).length = b.length := by
  intro fuel
  induction fuel with
  | zero => intro b i; rfl
  | succ fuel ih =>
    intro b i
    rw [shlLoop]
    split
    · rw [ih]; simp
    · rfl

lemma shlWord_congr (S pos W : Nat) (b cur : List Nat) (i : Nat)
    (h : ∀ j, i ≤ j → cur.getD j 0 = b.getD j 0) :
    shlWord S pos W cur i = shlWord S pos W b i := by
  simp only [shlWord]
  rw [h (i + pos / S) (Nat.le_add_right _ _), h (i + (pos / S + 1)) (Nat.le_add_right _ _)]

lemma shlLoop_spec (S pos W : Nat) :
    ∀ fuel (b cur : List Nat) (i : Nat), cur.length = W → W ≤ fuel + i →
      (∀ j, i ≤ j → cur.getD j 0 = b.getD j 0) →
      ∀ j, (shlLoop S pos W fuel cur i).getD j 0 =
        if i ≤ j ∧ j < W then shlWord S pos W b j else cur.getD j 0 := by
  intro fuel
  induction fuel with
  | zero =>
    intro b cur i hcur hWi hagree j
    rw [shlLoop]
    split
    · omega
    · rfl
  | succ fuel ih =>
    intro b cur i hcur hWi hagree j
    rw [shlLoop]
    split
    · have hiW : i < W := by assumption
      have hword : shlWord S pos W cur i = shlWord S pos W b i :=
        shlWord_congr S pos W b cur i hagree
      have hagree2 : ∀ j, i + 1 ≤ j →
          (cur.set i (shlWord S pos W cur i)).getD j 0 = b.getD j 0 := by
        intro j hj
        rw [getD_set_ne _ _ _ _ (by omega)]
        exact hagree j (by omega)
      rw [ih b _ (i + 1) (by simp [hcur]) (by omega) hagree2 j]
      rcases Nat.lt_trichotomy j i with hji | hji | hji
      · rw [if_neg (by omega), if_neg (by omega), getD_set_ne _ _ _ _ (by omega)]
      · subst hji
        rw [if_neg (by omega), if_pos ⟨Nat.le_refl j, hiW⟩,
          getD_set_self _ _ _ (by omega), hword]
      · by_cases hjW : j < W
        · rw [if_pos ⟨by omega, hjW⟩, if_pos ⟨by omega, hjW⟩]
        · rw [if_neg (by omega), if_neg (by omega), getD_set_ne _ _ _ _ (by omega)]
    · rw [if_neg (by omega)]

lemma shl_bits_length {N S : Nat} (v : uint_n N S) (pos : Nat) :
    (v.shl pos).bits.length = v.bits.length := by
  unfold uint_n.shl
  exact shlLoop_length S pos v.bits.length v.bits.length v.bits 0

lemma shl_bits_getD {N S : Nat} (v : uint_n N S) (pos j : Nat) :
    (v.shl pos).bits.getD j 0 =
      if j < v.bits.length then shlWord S pos v.bits.length v.bits j else 0 := by
  unfold uint_n.shl
  rw [shlLoop_spec S pos v.bits.length v.bits.length v.bits v.bits 0 rfl
    (by omega) (fun _ _ => rfl) j]
  by_cases hj : j < v.bits.length
  · rw [if_pos ⟨Nat.zero_le j, hj⟩, if_pos hj]
  · rw [if_neg (by omega), if_neg hj, getD_ge _ _ (by omega)]

lemma shlWord_lt {S pos W : Nat} (b : List Nat) (hb : ∀ w ∈ b, w < 2 ^ S) (i : Nat) :
    shlWord S pos W b i < 2 ^ S := by
  simp only [shlWord]
  split
  · split
    · apply Nat.or_lt_two_pow
      · exact Nat.mod_lt _ (Nat.two_pow_pos S)
      · calc b.getD (i + (pos / S + 1)) 0 >>> (S - pos % S)
            ≤ b.getD (i + (pos / S + 1)) 0 := by
              rw [Nat.shiftRight_eq_div_pow]; exact Nat.div_le_self _ _
          _ < 2 ^ S := getD_lt_two_pow b hb _
    · exact Nat.mod_lt _ (Nat.two_pow_pos S)
  · exact Nat.two_pow_pos S

lemma shl_words_lt {N S : Nat} (v : uint_n N S) (hw : ∀ w ∈ v.bits, w < 2 ^ S)
    (pos : Nat) : ∀ w ∈ (v.shl pos).bits, w < 2 ^ S := by
  intro w hwmem
  obtain ⟨j, hj, hjw⟩ := List.mem_iff_getElem.mp hwmem
  rw [← getD_lt _ _ hj] at hjw
  rw [shl_bits_getD v pos j] at hjw
  subst hjw
  split
  · exact shlWord_lt v.bits hw j
  · exact Nat.two_pow_pos S

/-- One destination word of the shift loop, seen bit by bit: writing
`q = S * j + bq` and `pos = S * u + sh`, the bit `bq` of the destination
word for logical word `j` is exactly bit `q - pos` of the stored value when
`q ≥ pos`, and `0` otherwise. -/
lemma shlWord_testBit_eq {S : Nat} (hS : 0 < S) (bits : List Nat)
    (hw : ∀ w ∈ bits, w < 2 ^ S) (j bq u sh q pos : Nat)
    (hjL : j < bits.length) (hbq : bq < S) (hsh : sh < S)
    (hqe : S * j + bq = q) (hpe : S * u + sh = pos)
    (huu : pos / S = u) (hshe : pos % S = sh) :
    (shlWord S pos bits.length bits (bits.length - 1 - j)).testBit bq
      = (decide (q ≥ pos) && (valLE S bits.reverse).testBit (q - pos)) := by
  have hbrev : ∀ w ∈ bits.reverse, w < 2 ^ S := fun x hx => hw x (List.mem_reverse.mp hx)
  simp only [shlWord]
  rw [huu, hshe]
  by_cases hcase : u ≤ j
  · rw [if_pos (show bits.length - 1 - j + u < bits.length by omega)]
    rw [show bits.length - 1 - j + u = bits.length - 1 - (j - u) by omega]
    rw [← getD_reverse bits (j - u) (by omega)]
    by_cases hlow : u < j
    · rw [if_pos (show bits.length - 1 - j + (u + 1) < bits.length by omega)]
      rw [show bits.length - 1 - j + (u + 1) = bits.length - 1 - (j - u - 1) by omega]
      rw [← getD_reverse bits (j - u - 1) (by omega)]
      rw [Nat.testBit_or, Nat.testBit_mod_two_pow, Nat.testBit_shiftLeft,
        Nat.testBit_shiftRight, decide_eq_true hbq, Bool.true_and]
      by_cases hbs : sh ≤ bq
      · obtain ⟨d, hd⟩ : ∃ d, j = u + d := ⟨j - u, by omega⟩
        have hSd : S * j = S * u + S * d := by rw [hd]; ring
        have hyb : (bits.reverse.getD (j - u - 1) 0).testBit (S - sh + bq) = false := by
          apply Nat.testBit_lt_two_pow
          calc bits.reverse.getD (j - u - 1) 0
              < 2 ^ S := getD_lt_two_pow _ hbrev _
            _ ≤ 2 ^ (S - sh + bq) := Nat.pow_le_pow_right (by norm_num) (by omega)
        rw [hyb, Bool.or_false, decide_eq_true (show bq ≥ sh by omega), Bool.true_and,
          decide_eq_true (show q ≥ pos by omega), Bool.true_and]
        rw [valLE_testBit hS _ hbrev (q - pos)]
        have he : q - pos = (bq - sh) + S * d := by omega
        rw [he, Nat.add_mul_div_left _ _ hS,
          Nat.div_eq_of_lt (show bq - sh < S by omega), Nat.zero_add,
          Nat.add_mul_mod_self_left, Nat.mod_eq_of_lt (show bq - sh < S by omega),
          show j - u = d by omega]
      · obtain ⟨d, hd⟩ : ∃ d, j = u + d + 1 := ⟨j - u - 1, by omega⟩
        have hSd : S * j = S * u + S * d + S := by rw [hd]; ring
        rw [decide_eq_false (show ¬ bq ≥ sh by omega), Bool.false_and, Bool.false_or,
          decide_eq_true (show q ≥ pos by omega), Bool.true_and]
        rw [valLE_testBit hS _ hbrev (q - pos)]
        have he : q - pos = (S - sh + bq) + S * d := by omega
        rw [he, Nat.add_mul_div_left _ _ hS,
          Nat.div_eq_of_lt (show S - sh + bq < S by omega), Nat.zero_add,
          Nat.add_mul_mod_self_left, Nat.mod_eq_of_lt (show S - sh + bq < S by omega),
          show j - u - 1 = d by omega]
    · rw [if_neg (show ¬ bits.length - 1 - j + (u + 1) < bits.length by omega)]
      rw [Nat.testBit_mod_two_pow, Nat.testBit_shiftLeft, decide_eq_true hbq,
        Bool.true_and]
      have hju2 : j = u := by omega
      subst hju2
      by_cases hbs : sh ≤ bq
      · rw [decide_eq_true (show bq ≥ sh by omega), Bool.true_and,
          decide_eq_true (show q ≥ pos by omega), Bool.true_and]
        rw [valLE_testBit hS _ hbrev (q - pos)]
        have he : q - pos = bq - sh := by omega
        rw [he, Nat.div_eq_of_lt (show bq - sh < S by omega),
          Nat.mod_eq_of_lt (show bq - sh < S by omega), show j - j = 0 by omega]
      · rw [decide_eq_false (show ¬ bq ≥ sh by omega), Bool.false_and,
          decide_eq_false (show ¬ q ≥ pos by omega), Bool.false_and]
  · rw [if_neg (show ¬ bits.length - 1 - j + u < bits.length by omega)]
    obtain ⟨d, hd⟩ : ∃ d, u = j + d + 1 := ⟨u - j - 1, by omega⟩
    have hSd : S * u = S * j + S * d + S := by rw [hd]; ring
    rw [decide_eq_false (show ¬ q ≥ pos by omega), Bool.false_and, Nat.zero_testBit]

/-- Key shift lemma: on the stored bits, `operator<<=` is exactly shifting
the stored value left by `pos` and truncating to the `W * S` stored bits. -/
lemma shl_storedValue {N S : Nat} (hS : 0 < S) (v : uint_n N S)
    (hw : ∀ w ∈ v.bits, w < 2 ^ S) (pos : Nat) :
    storedValue (v.shl pos) = (storedValue v <<< pos) % 2 ^ (v.bits.length * S) := by
  have hw2 := shl_words_lt v hw pos
  have hlen := shl_bits_length v pos
  unfold storedValue
  apply Nat.eq_of_testBit_eq
  intro q
  rw [valLE_testBit hS _ (fun x hx => hw2 x (List.mem_reverse.mp hx)) q,
    Nat.testBit_mod_two_pow, Nat.testBit_shiftLeft]
  rcases Nat.lt_or_ge q (v.bits.length * S) with hq | hq
  · have hjW : q / S < v.bits.length := by rw [Nat.div_lt_iff_lt_mul hS]; exact hq
    rw [decide_eq_true hq, Bool.true_and]
    rw [getD_reverse _ _ (by rw [hlen]; exact hjW), hlen]
    have hL : 0 < v.bits.length := Nat.lt_of_le_of_lt (Nat.zero_le _) hjW
    rw [shl_bits_getD v pos (v.bits.length - 1 - q / S),
      if_pos (Nat.lt_of_le_of_lt (Nat.sub_le _ _) (Nat.sub_lt hL Nat.one_pos))]
    exact shlWord_testBit_eq hS v.bits hw (q / S) (q % S) (pos / S) (pos % S) q pos
      hjW (Nat.mod_lt _ hS) (Nat.mod_lt _ hS) (Nat.div_add_mod q S)
      (Nat.div_add_mod pos S) rfl rfl
  · have hge : (v.shl pos).bits.reverse.length ≤ q / S := by
      rw [List.length_reverse, hlen, Nat.le_div_iff_mul_le hS]
      exact hq
    rw [getD_ge _ _ hge, decide_eq_false (by omega), Bool.false_and]
    simp

/-! ### Decrement -/

lemma decWords_length (S : Nat) (l : List Nat) : (decWords S l).length = l.length := by
  induction l with
  | nil => rfl
  | cons w ws ih =>
    rw [decWords]
    split <;> simp [ih]

lemma decWords_lt (S : Nat) (l : List Nat) (h : ∀ w ∈ l, w < 2 ^ S) :
    ∀ w ∈ decWords S l, w < 2 ^ S := by
  induction l with
  | nil => simp [decWords]
  | cons w ws ih =>
    intro x hx
    rw [decWords] at hx
    split at hx
    · rcases List.mem_cons.mp hx with h1 | h1
      · have := h w (by simp)
        omega
      · exact h x (by simp [h1])
    · rcases List.mem_cons.mp hx with h1 | h1
      · have := Nat.two_pow_pos S
        omega
      · exact ih (fun y hy => h y (by simp [hy])) x h1

lemma pred_mod (v K : Nat) (h1 : 1 ≤ v) (h2 : v ≤ K) : (v + K - 1) % K = v - 1 := by
  rw [show v + K - 1 = (v - 1) + K by omega, Nat.add_mod_right]
  exact Nat.mod_eq_of_lt (by omega)

lemma decWords_valLE (S : Nat) (l : List Nat) (h : ∀ w ∈ l, w < 2 ^ S) :
    valLE S (decWords S l)
      = (valLE S l + 2 ^ (l.length * S) - 1) % 2 ^ (l.length * S) := by
  induction l with
  | nil => simp [decWords, valLE]
  | cons w ws ih =>
    have hw : w < 2 ^ S := h w (by simp)
    have hR : valLE S ws < 2 ^ (ws.length * S) :=
      valLE_lt ws (fun x hx => h x (by simp [hx]))
    have hpow : 2 ^ ((w :: ws).length * S) = 2 ^ S * 2 ^ (ws.length * S) := by
      rw [List.length_cons, Nat.succ_mul, pow_add]
      ring
    rw [decWords]
    split
    · rename_i hw0
      simp only [valLE]
      rw [hpow]
      have hv := valLE_lt (S := S) (w :: ws) h
      rw [hpow] at hv
      simp only [valLE] at hv
      rw [pred_mod (w + 2 ^ S * valLE S ws) _ (by omega) (Nat.le_of_lt hv)]
      omega
    · rename_i hw0
      have hw0' : w = 0 := not_not.mp hw0
      subst hw0'
      simp only [valLE]
      rw [hpow, ih (fun x hx => h x (by simp [hx])), Nat.zero_add]
      rcases Nat.eq_zero_or_pos (valLE S ws) with hR0 | hR0
      · rw [hR0, Nat.mul_zero]
        simp only [Nat.zero_add]
        have hM : (0:Nat) < 2 ^ (ws.length * S) := Nat.two_pow_pos _
        have hSM : (0:Nat) < 2 ^ S * 2 ^ (ws.length * S) :=
          Nat.mul_pos (Nat.two_pow_pos _) hM
        rw [Nat.mod_eq_of_lt
            (show 2 ^ (ws.length * S) - 1 < 2 ^ (ws.length * S) by omega),
          Nat.mod_eq_of_lt (show 2 ^ S * 2 ^ (ws.length * S) - 1
            < 2 ^ S * 2 ^ (ws.length * S) by omega)]
        obtain ⟨E, hE⟩ : ∃ E, 2 ^ (ws.length * S) = E + 1 :=
          ⟨2 ^ (ws.length * S) - 1, by omega⟩
        rw [hE, Nat.add_sub_cancel, Nat.mul_add, Nat.mul_one]
        omega
      · have hv1 : 1 ≤ 2 ^ S * valLE S ws := Nat.mul_pos (Nat.two_pow_pos _) hR0
        have hvK : 2 ^ S * valLE S ws ≤ 2 ^ S * 2 ^ (ws.length * S) :=
          Nat.mul_le_mul_left _ (Nat.le_of_lt hR)
        rw [pred_mod (valLE S ws) _ hR0 (Nat.le_of_lt hR),
          pred_mod (2 ^ S * valLE S ws) _ hv1 hvK]
        obtain ⟨E, hE⟩ : ∃ E, valLE S ws = E + 1 := ⟨valLE S ws - 1, by omega⟩
        rw [hE, Nat.add_sub_cancel, Nat.mul_add, Nat.mul_one]
        omega

lemma dec_bits_length {N S : Nat} (v : uint_n N S) :
    (uint_n.dec v).bits.length = v.bits.length := by
  unfold uint_n.dec
  simp [decWords_length]

lemma dec_words_lt {N S : Nat} (v : uint_n N S) (hw : ∀ w ∈ v.bits, w < 2 ^ S) :
    ∀ w ∈ (uint_n.dec v).bits, w < 2 ^ S := by
  unfold uint_n.dec
  intro x hx
  rw [List.mem_reverse] at hx
  exact decWords_lt S _ (fun y hy => hw y (List.mem_reverse.mp hy)) x hx

lemma dec_storedValue {N S : Nat} (v : uint_n N S) (hw : ∀ w ∈ v.bits, w < 2 ^ S) :
    storedValue (uint_n.dec v)
      = (storedValue v + 2 ^ (v.bits.length * S) - 1) % 2 ^ (v.bits.length * S) := by
  unfold storedValue uint_n.dec
  rw [List.reverse_reverse]
  rw [decWords_valLE S v.bits.reverse (fun x hx => hw x (List.mem_reverse.mp hx))]
  rw [List.length_reverse]

/-! ### popcount helpers -/

lemma builtin_popcount_zero : builtin_popcount 0 = 0 := rfl

lemma sumPop_eq_zero (l : List Nat) (h : ∀ w ∈ l, w = 0) : sumPop l = 0 := by
  induction l with
  | nil => rfl
  | cons w ws ih =>
    rw [sumPop, h w (by simp), ih (fun x hx => h x (by simp [hx]))]
    rfl

lemma getD_drop (l : List Nat) (i j : Nat) : (l.drop i).getD j 0 = l.getD (i + j) 0 := by
  simp [List.getElem?_drop]

lemma mem_drop_one (l : List Nat) (x : Nat) (hx : x ∈ l.drop 1) :
    ∃ i, 1 ≤ i ∧ i < l.length ∧ l.getD i 0 = x := by
  obtain ⟨j, hj, hjx⟩ := List.mem_iff_getElem.mp hx
  have hlen : j < l.length - 1 := by simpa using hj
  refine ⟨1 + j, by omega, by omega, ?_⟩
  rw [← getD_drop l 1 j, getD_lt _ _ hj]
  exact hjx

/-! ### test, set and unset at the word level -/

lemma test_getD {N S : Nat} (v : uint_n N S) (p : Nat) :
    v.test p = (v.bits.getD (v.bits.length - p / S - 1) 0).testBit (p % S) := by
  unfold uint_n.test
  rw [and_one_shl]

lemma setBit_bits {N S : Nat} (v : uint_n N S) (pos : Nat) :
    (uint_n.setBit v pos).bits = v.bits.set (v.bits.length - pos / S - 1)
      ((v.bits.getD (v.bits.length - pos / S - 1) 0) ||| (1 <<< (pos % S))) := rfl

lemma unset_bits {N S : Nat} (v : uint_n N S) (pos : Nat) :
    (uint_n.unset v pos).bits = v.bits.set (v.bits.length - pos / S - 1)
      ((v.bits.getD (v.bits.length - pos / S - 1) 0)
        &&& ((2 ^ S - 1) ^^^ (1 <<< (pos % S)))) := rfl

lemma testBit_or_shl_self (w l : Nat) : (w ||| 1 <<< l).testBit l = true := by
  rw [Nat.one_shiftLeft, Nat.testBit_or, Nat.testBit_two_pow]
  simp

lemma testBit_or_shl_ne (w l l2 : Nat) (h : l ≠ l2) :
    (w ||| 1 <<< l).testBit l2 = w.testBit l2 := by
  rw [Nat.one_shiftLeft, Nat.testBit_or, Nat.testBit_two_pow, decide_eq_false h,
    Bool.or_false]

lemma testBit_and_mask_self (w l S : Nat) (hl : l < S) :
    (w &&& ((2 ^ S - 1) ^^^ (1 <<< l))).testBit l = false := by
  rw [Nat.one_shiftLeft, Nat.testBit_and, Nat.testBit_xor, Nat.testBit_two_pow_sub_one,
    Nat.testBit_two_pow, decide_eq_true hl]
  simp

lemma testBit_and_mask_ne (w l l2 S : Nat) (hl2 : l2 < S) (h : l ≠ l2) :
    (w &&& ((2 ^ S - 1) ^^^ (1 <<< l))).testBit l2 = w.testBit l2 := by
  rw [Nat.one_shiftLeft, Nat.testBit_and, Nat.testBit_xor, Nat.testBit_two_pow_sub_one,
    Nat.testBit_two_pow, decide_eq_true hl2, decide_eq_false h]
  simp

/-! ### Bitwise and at the word level -/

lemma zipWith_and_comm (l1 l2 : List Nat) :
    List.zipWith (fun a b => a &&& b) l1 l2 = List.zipWith (fun a b => a &&& b) l2 l1 := by
  induction l1 generalizing l2 with
  | nil => cases l2 <;> rfl
  | cons a l1 ih =>
    cases l2 with
    | nil => rfl
    | cons b l2 => simp [List.zipWith, Nat.and_comm, ih]

lemma zipWith_and_getD (l1 l2 : List Nat) (hl : l1.length = l2.length) (i : Nat) :
    (List.zipWith (fun a b => a &&& b) l1 l2).getD i 0
      = (l1.getD i 0) &&& (l2.getD i 0) := by
  induction l1 generalizing l2 i with
  | nil =>
    cases l2 with
    | nil => simp
    | cons b l2 => simp at hl
  | cons a l1 ih =>
    cases l2 with
    | nil => simp at hl
    | cons b l2 =>
      cases i with
      | zero => simp [List.zipWith]
      | succ i =>
        simp only [List.zipWith, List.getD_cons_succ]
        exact ih l2 (by simpa using hl) i

/-! ### Replicate helpers -/

lemma getD_replicate_zero (n j : Nat) : (List.replicate n (0:Nat)).getD j 0 = 0 := by
  rcases Nat.lt_or_ge j n with hj | hj
  · rw [getD_lt _ _ (by simpa using hj), List.getElem_replicate]
  · exact getD_ge _ _ (by simpa using hj)

lemma valLE_replicate (S n : Nat) : valLE S (List.replicate n 0) = 0 := by
  induction n with
  | zero => rfl
  | succ n ih =>
    rw [List.replicate_succ, valLE, ih]
    simp

/-! ### Claim theorems -/

/-- C1: the claim states that when `N` is an exact multiple of `S` the most
significant word is still counted in full.  The code disagrees: for
`uint_n<8, uint8_t>` holding the all ones word `255`, every one of the 8
logical bits tests as set, yet `popcount` returns `0`, because the
`first == S` branch contributes `0` for word 0 instead of its full count.
This theorem evaluates the code at that failing input. -/
theorem popcount_skips_exact_multiple_top_word :
    popcount (⟨[255]⟩ : uint_n 8 8) = 0
      ∧ ((List.range 8).all fun pos => (⟨[255]⟩ : uint_n 8 8).test pos) = true := by
  decide

/-- C2: shifting left by 0 is the identity on every stored word; the pure
`<<` copies the receiver and applies `<<=`, so both forms are the single
function `shl` and the statement covers both.  The lower contribution
`bits[i + 1] >> (S - 0)` is an `S` bit shift, modelled here (as the spec
demands) as contributing zero. -/
theorem shl_zero_identity {N S : Nat} (v : uint_n N S)
    (hw : ∀ w ∈ v.bits, w < 2 ^ S) : v.shl 0 = v := by
  have hbits : (v.shl 0).bits = v.bits := by
    apply list_ext_getD _ _ (shl_bits_length v 0)
    intro j hj
    rw [shl_bits_length] at hj
    rw [shl_bits_getD v 0 j, if_pos hj]
    simp only [shlWord, Nat.zero_div, Nat.zero_mod, Nat.add_zero, Nat.zero_add,
      Nat.shiftLeft_zero, Nat.sub_zero]
    rw [if_pos hj]
    rw [Nat.mod_eq_of_lt (getD_lt_two_pow _ hw j)]
    by_cases hj1 : j + 1 < v.bits.length
    · rw [if_pos hj1]
      have h0 : v.bits.getD (j + 1) 0 >>> S = 0 := by
        rw [Nat.shiftRight_eq_div_pow]
        exact Nat.div_eq_of_lt (getD_lt_two_pow _ hw _)
      rw [h0, Nat.or_zero]
    · rw [if_neg hj1]
  exact congrArg uint_n.mk hbits

/-- C2 witness: a concrete two word value of width 9 is unchanged by a
shift of 0. -/
theorem shl_zero_identity_witness :
    (∀ w ∈ (⟨[2, 170]⟩ : uint_n 9 8).bits, w < 2 ^ 8)
      ∧ (⟨[2, 170]⟩ : uint_n 9 8).shl 0 = ⟨[2, 170]⟩ :=
  ⟨by decide, shl_zero_identity (⟨[2, 170]⟩ : uint_n 9 8) (by decide)⟩

/-- C5: the value initialised `uint_n{}` has every stored word zero, so
every `test(pos)` with `pos < N` is false and its `popcount` is 0. -/
theorem zero_value_all_clear {N S : Nat} :
    (uint_n.zero N S).bits = List.replicate (wordCount N S) 0
    ∧ (∀ pos, pos < N → (uint_n.zero N S).test pos = false)
    ∧ popcount (uint_n.zero N S) = 0 := by
  refine ⟨rfl, ?_, ?_⟩
  · intro pos hpos
    rw [test_getD]
    rw [show (uint_n.zero N S).bits = List.replicate (wordCount N S) 0 from rfl]
    rw [getD_replicate_zero, Nat.zero_testBit]
  · simp only [popcount]
    rw [show (uint_n.zero N S).bits = List.replicate (wordCount N S) 0 from rfl]
    have hsum : sumPop ((List.replicate (wordCount N S) (0:Nat)).drop 1) = 0 := by
      rw [List.drop_replicate]
      exact sumPop_eq_zero _ (fun w hw => List.eq_of_mem_replicate hw)
    rw [hsum, Nat.add_zero, getD_replicate_zero, Nat.and_zero]
    split <;> split <;> simp [builtin_popcount_zero]

/-- C5 witness: the width 9 all zero value evaluated concretely. -/
theorem zero_value_all_clear_witness :
    (uint_n.zero 9 8).bits = List.replicate (wordCount 9 8) 0
    ∧ (∀ pos, pos < 9 → (uint_n.zero 9 8).test pos = false)
    ∧ popcount (uint_n.zero 9 8) = 0 :=
  zero_value_all_clear

/-- C9: bitwise and: the two argument operator is word wise commutative,
each stored word of the result is the word wise and of the inputs, and each
logical bit of the result is the conjunction of the input bits. -/
theorem and_wordwise_commutative {N S : Nat} (_hN : 0 < N) (_hS : 0 < S)
    (x y : uint_n N S) (hx : x.bits.length = wordCount N S)
    (hy : y.bits.length = wordCount N S) :
    uint_n.land x y = uint_n.land y x
    ∧ (∀ i, (uint_n.land x y).bits.getD i 0 = (x.bits.getD i 0) &&& (y.bits.getD i 0))
    ∧ (∀ pos, pos < N → (uint_n.land x y).test pos = (x.test pos && y.test pos)) := by
  have hxy : x.bits.length = y.bits.length := by rw [hx, hy]
  refine ⟨congrArg uint_n.mk (zipWith_and_comm x.bits y.bits), ?_, ?_⟩
  · intro i
    exact zipWith_and_getD x.bits y.bits hxy i
  · intro pos hpos
    rw [test_getD, test_getD, test_getD]
    have hlen2 : (uint_n.land x y).bits.length = wordCount N S := by
      show (List.zipWith _ x.bits y.bits).length = _
      rw [List.length_zipWith, hx, hy, Nat.min_self]
    rw [hlen2, hx, hy]
    rw [show (uint_n.land x y).bits = List.zipWith (fun a b => a &&& b) x.bits y.bits
        from rfl]
    rw [zipWith_and_getD x.bits y.bits hxy, Nat.testBit_and]

/-- C9 witness: the width 10 test values of the suite, one bit extracted
through the theorem. -/
theorem and_wordwise_commutative_witness :
    ((0:Nat) < 10 ∧ (0:Nat) < 8
      ∧ (⟨[2, 7]⟩ : uint_n 10 8).bits.length = wordCount 10 8
      ∧ (⟨[3, 5]⟩ : uint_n 10 8).bits.length = wordCount 10 8)
    ∧ (uint_n.land (⟨[2, 7]⟩ : uint_n 10 8) ⟨[3, 5]⟩
          = uint_n.land (⟨[3, 5]⟩ : uint_n 10 8) ⟨[2, 7]⟩
      ∧ (∀ i, (uint_n.land (⟨[2, 7]⟩ : uint_n 10 8) ⟨[3, 5]⟩).bits.getD i 0
          = ((⟨[2, 7]⟩ : uint_n 10 8).bits.getD i 0)
              &&& ((⟨[3, 5]⟩ : uint_n 10 8).bits.getD i 0))
      ∧ (∀ pos, pos < 10 →
          (uint_n.land (⟨[2, 7]⟩ : uint_n 10 8) ⟨[3, 5]⟩).test pos
            = ((⟨[2, 7]⟩ : uint_n 10 8).test pos && (⟨[3, 5]⟩ : uint_n 10 8).test pos))) :=
  ⟨⟨by decide, by decide, by decide, by decide⟩,
    and_wordwise_commutative (by decide) (by decide) ⟨[2, 7]⟩ ⟨[3, 5]⟩
      (by decide) (by decide)⟩

/-- C3: shift left correctness bit by bit: for `pos < N` and every
destination `q < N`, bit `q` of `shiftLeft(pos)` is set exactly when
`q ≥ pos` and bit `q - pos` of the original value is set; bits shifted past
`N - 1` are dropped and the vacated low positions read as zero. -/
theorem shl_moves_bits {N S : Nat} (hN : 0 < N) (hS : 0 < S) (v : uint_n N S)
    (hv : v.Wf) (pos q : Nat) (hpos : pos < N) (hq : q < N) :
    (v.shl pos).test q = (decide (q ≥ pos) && v.test (q - pos)) := by
  obtain ⟨hlen, hw⟩ := hv
  have hidx : q / S < (v.shl pos).bits.length := by
    rw [shl_bits_length, hlen]
    exact div_lt_wordCount hN hS hq
  rw [test_eq_testBit hS (v.shl pos) (shl_words_lt v hw pos) q hidx,
    shl_storedValue hS v hw pos, Nat.testBit_mod_two_pow, Nat.testBit_shiftLeft]
  have hqWS : q < v.bits.length * S := by
    rw [hlen]
    exact Nat.lt_of_lt_of_le hq (le_wordCount_mul hN hS)
  rw [decide_eq_true hqWS, Bool.true_and]
  rw [test_eq_testBit hS v hw (q - pos)
    (by rw [hlen]; exact div_lt_wordCount hN hS (by omega))]

/-- C3 witness: the width 10 shift test of the suite, destination bit 6
after shifting `0b10101001` by 3. -/
theorem shl_moves_bits_witness :
    ((0:Nat) < 10 ∧ (0:Nat) < 8 ∧ (⟨[0, 169]⟩ : uint_n 10 8).Wf
      ∧ (3:Nat) < 10 ∧ (6:Nat) < 10)
    ∧ ((⟨[0, 169]⟩ : uint_n 10 8).shl 3).test 6
        = (decide ((6:Nat) ≥ 3) && (⟨[0, 169]⟩ : uint_n 10 8).test (6 - 3)) :=
  ⟨⟨by decide, by decide, by decide, by decide, by decide⟩,
    shl_moves_bits (by decide) (by decide) ⟨[0, 169]⟩ (by decide) 3 6
      (by decide) (by decide)⟩

/-- C7: shifting by any amount `pos ≥ N` clears the value: every logical
bit position tests as 0 and the population count of the result is 0. -/
theorem shl_ge_width_all_zero {N S : Nat} (hN : 0 < N) (hS : 0 < S) (v : uint_n N S)
    (hv : v.Wf) (pos : Nat) (hpos : N ≤ pos) :
    (∀ q, q < N → (v.shl pos).test q = false) ∧ popcount (v.shl pos) = 0 := by
  obtain ⟨hlen, hw⟩ := hv
  have hup : wordCount N S - 1 ≤ pos / S := by
    rw [Nat.le_div_iff_mul_le hS]
    exact Nat.le_of_lt (Nat.lt_of_lt_of_le (wordCount_pred_mul_lt hN hS) hpos)
  constructor
  · intro q hq
    have hidx : q / S < (v.shl pos).bits.length := by
      rw [shl_bits_length, hlen]
      exact div_lt_wordCount hN hS hq
    rw [test_eq_testBit hS (v.shl pos) (shl_words_lt v hw pos) q hidx,
      shl_storedValue hS v hw pos, Nat.testBit_mod_two_pow, Nat.testBit_shiftLeft,
      decide_eq_false (show ¬ q ≥ pos by omega)]
    simp
  · have hword : ∀ i, 1 ≤ i → i < v.bits.length → (v.shl pos).bits.getD i 0 = 0 := by
      intro i hi1 hiW
      rw [shl_bits_getD v pos i, if_pos hiW]
      simp only [shlWord]
      have hcond : ¬ (i + pos / S < v.bits.length) := by
        rw [hlen]
        obtain ⟨u, hu⟩ : ∃ u, u = pos / S := ⟨_, rfl⟩
        rw [← hu] at hup ⊢
        have hWpos := wordCount_pos hN hS
        omega
      rw [if_neg hcond]
    simp only [popcount]
    have hsum : sumPop ((v.shl pos).bits.drop 1) = 0 := by
      apply sumPop_eq_zero
      intro x hx
      obtain ⟨i, hi1, hiW, hgd⟩ := mem_drop_one _ x hx
      rw [shl_bits_length] at hiW
      rw [← hgd]
      exact hword i hi1 hiW
    rw [hsum, Nat.add_zero]
    by_cases hnz : N % S ≠ 0
    case neg =>
      rw [if_neg hnz, if_pos rfl]
    case pos =>
      rw [if_pos hnz]
      have hNSlt : N % S < S := Nat.mod_lt _ hS
      rw [if_neg (by omega)]
      have hw0 : ((1 <<< (N % S)) - 1) &&& (v.shl pos).bits.getD 0 0 = 0 := by
        have hL : 0 < v.bits.length := by rw [hlen]; exact wordCount_pos hN hS
        rw [shl_bits_getD v pos 0, if_pos hL]
        simp only [shlWord]
        by_cases hc : 0 + pos / S < v.bits.length
        · rw [if_pos hc]
          have hpd : pos / S = wordCount N S - 1 := by
            rw [hlen] at hc
            obtain ⟨u, hu⟩ : ∃ u, u = pos / S := ⟨_, rfl⟩
            rw [← hu] at hc hup ⊢
            omega
          have hc2 : ¬ (0 + (pos / S + 1) < v.bits.length) := by
            rw [hlen]
            obtain ⟨u, hu⟩ : ∃ u, u = pos / S := ⟨_, rfl⟩
            rw [← hu] at hpd ⊢
            have hWpos := wordCount_pos hN hS
            omega
          rw [if_neg hc2]
          have hNd : N / S = wordCount N S - 1 := by
            have hWc := (wordCount_cases hN hS).2 hnz
            obtain ⟨a, ha⟩ : ∃ a, a = N / S := ⟨_, rfl⟩
            rw [← ha] at hWc ⊢
            omega
          have hshge : N % S ≤ pos % S := by
            have h1 : S * (N / S) + N % S = N := Nat.div_add_mod N S
            have h2 : S * (pos / S) + pos % S = pos := Nat.div_add_mod pos S
            have e1 : S * (pos / S) = S * (N / S) := by rw [hpd, hNd]
            obtain ⟨a, ha⟩ : ∃ a, a = N % S := ⟨_, rfl⟩
            obtain ⟨b, hb⟩ : ∃ b, b = pos % S := ⟨_, rfl⟩
            obtain ⟨c, hc3⟩ : ∃ c, c = S * (N / S) := ⟨_, rfl⟩
            obtain ⟨d, hd3⟩ : ∃ d, d = S * (pos / S) := ⟨_, rfl⟩
            rw [← ha, ← hc3] at h1
            rw [← hb, ← hd3] at h2
            rw [← hc3, ← hd3] at e1
            rw [← ha, ← hb]
            omega
          rw [Nat.one_shiftLeft, Nat.and_comm, Nat.and_pow_two_sub_one_eq_mod,
            Nat.mod_mod_of_dvd _ (pow_dvd_pow 2 (Nat.le_of_lt hNSlt)),
            Nat.shiftLeft_eq]
          exact (Nat.dvd_iff_mod_eq_zero).mp
            (Dvd.dvd.mul_left (pow_dvd_pow 2 hshge) _)
        · rw [if_neg hc]
          exact Nat.and_zero _
      rw [hw0]
      exact builtin_popcount_zero

/-- C7 witness: width 9 value shifted by 9. -/
theorem shl_ge_width_all_zero_witness :
    ((0:Nat) < 9 ∧ (0:Nat) < 8 ∧ (⟨[1, 170]⟩ : uint_n 9 8).Wf ∧ (9:Nat) ≤ 9)
    ∧ ((∀ q, q < 9 → ((⟨[1, 170]⟩ : uint_n 9 8).shl 9).test q = false)
      ∧ popcount ((⟨[1, 170]⟩ : uint_n 9 8).shl 9) = 0) :=
  ⟨⟨by decide, by decide, by decide, by decide⟩,
    shl_ge_width_all_zero (by decide) (by decide) ⟨[1, 170]⟩ (by decide) 9
      (by decide)⟩

/-- C4: prefix decrement is ripple borrow subtraction of 1 modulo `2 ^ N`
on the logical value (stated over the integers so that the wrap at 0 reads
as `(k - 1) mod 2 ^ N`), and decrementing the all zero value turns every
logical bit position on. -/
theorem dec_subtracts_one_mod {N S : Nat} (hN : 0 < N) (hS : 0 < S)
    (v : uint_n N S) (hv : v.Wf) :
    ((logicalValue (uint_n.dec v) : Int) = ((logicalValue v : Int) - 1) % 2 ^ N)
    ∧ (v.bits = List.replicate (wordCount N S) 0 →
        ∀ pos, pos < N → (uint_n.dec v).test pos = true) := by
  obtain ⟨hlen, hw⟩ := hv
  have hdw : (uint_n.dec v).Wf := ⟨by rw [dec_bits_length, hlen], dec_words_lt v hw⟩
  have hdvd : (2:Nat) ^ N ∣ 2 ^ (v.bits.length * S) :=
    pow_dvd_pow 2 (by rw [hlen]; exact le_wordCount_mul hN hS)
  have h2N : (1:Nat) ≤ 2 ^ N := Nat.two_pow_pos N
  have hnat : logicalValue (uint_n.dec v)
      = (logicalValue v + (2 ^ N - 1)) % 2 ^ N := by
    rw [logicalValue_eq_mod hN hS _ hdw, logicalValue_eq_mod hN hS v ⟨hlen, hw⟩,
      dec_storedValue v hw, Nat.mod_mod_of_dvd _ hdvd]
    obtain ⟨c, hc⟩ := hdvd
    have hc0 : c ≠ 0 := by
      intro h0
      rw [h0, Nat.mul_zero] at hc
      exact absurd hc (Nat.pos_iff_ne_zero.mp (Nat.two_pow_pos _))
    obtain ⟨c2, hc2⟩ : ∃ c2, c = c2 + 1 := ⟨c - 1, by omega⟩
    rw [hc, hc2, Nat.mul_add, Nat.mul_one]
    rw [show storedValue v + (2 ^ N * c2 + 2 ^ N) - 1
        = (storedValue v + (2 ^ N - 1)) + 2 ^ N * c2 by omega]
    rw [Nat.add_mul_mod_self_left]
    rw [Nat.add_mod (storedValue v) (2 ^ N - 1) (2 ^ N),
      Nat.mod_eq_of_lt (show 2 ^ N - 1 < 2 ^ N by omega)]
  constructor
  · rw [hnat, Int.ofNat_emod, Nat.cast_add, Nat.cast_sub h2N]
    push_cast
    rw [show (logicalValue v : Int) + ((2:Int) ^ N - 1)
        = ((logicalValue v : Int) - 1) + 2 ^ N * 1 by ring,
      Int.add_mul_emod_self_left]
  · intro hz pos hpos
    have hsv : storedValue v = 0 := by
      rw [storedValue, hz, List.reverse_replicate, valLE_replicate]
    have hidx : pos / S < (uint_n.dec v).bits.length := by
      rw [dec_bits_length, hlen]
      exact div_lt_wordCount hN hS hpos
    have hM1 : (1:Nat) ≤ 2 ^ (v.bits.length * S) := Nat.two_pow_pos _
    rw [test_eq_testBit hS _ (dec_words_lt v hw) pos hidx, dec_storedValue v hw, hsv,
      Nat.zero_add,
      Nat.mod_eq_of_lt
        (show 2 ^ (v.bits.length * S) - 1 < 2 ^ (v.bits.length * S) by omega),
      Nat.testBit_two_pow_sub_one]
    exact decide_eq_true
      (by rw [hlen]; exact Nat.lt_of_lt_of_le hpos (le_wordCount_mul hN hS))

/-- C4 witness: width 9 value with logical value 261 decremented to 260,
plus the all zero wrap at width 9. -/
theorem dec_subtracts_one_mod_witness :
    ((0:Nat) < 9 ∧ (0:Nat) < 8 ∧ (⟨[1, 5]⟩ : uint_n 9 8).Wf)
    ∧ (((logicalValue (uint_n.dec (⟨[1, 5]⟩ : uint_n 9 8)) : Int)
          = ((logicalValue (⟨[1, 5]⟩ : uint_n 9 8) : Int) - 1) % 2 ^ 9)
      ∧ ((⟨[1, 5]⟩ : uint_n 9 8).bits = List.replicate (wordCount 9 8) 0 →
          ∀ pos, pos < 9 → (uint_n.dec (⟨[1, 5]⟩ : uint_n 9 8)).test pos = true)) :=
  ⟨⟨by decide, by decide, by decide⟩,
    dec_subtracts_one_mod (by decide) (by decide) ⟨[1, 5]⟩ (by decide)⟩

/-- C6: the multi word constructor copies its `W` most significant first
arguments into storage, and reading back any `pos < N` through `test`
returns bit `pos % S` of the supplied word at storage index
`W - 1 - pos / S`; moreover that access never addresses a padding bit: when
it reads word 0 the in word offset is below `first`. -/
theorem ofWords_roundtrip {N S : Nat} (hN : 0 < N) (hS : 0 < S)
    (_hW : 1 < wordCount N S) (ws : List Nat) (hlen : ws.length = wordCount N S)
    (_hws : ∀ w ∈ ws, w < 2 ^ S) (pos : Nat) (hpos : pos < N) :
    (uint_n.ofWords N S ws).test pos
      = (ws.getD (wordCount N S - 1 - pos / S) 0).testBit (pos % S)
    ∧ (wordCount N S - 1 - pos / S = 0 →
        pos % S < (if N % S = 0 then S else N % S)) := by
  constructor
  · rw [test_getD]
    rw [show (uint_n.ofWords N S ws).bits = ws from rfl, hlen]
    rw [show wordCount N S - pos / S - 1 = wordCount N S - 1 - pos / S by
      rw [Nat.sub_sub, Nat.sub_sub, Nat.add_comm]]
  · intro h0
    by_cases hz : N % S = 0
    · rw [if_pos hz]
      exact Nat.mod_lt _ hS
    · rw [if_neg hz]
      have hWc := (wordCount_cases hN hS).2 hz
      have hdlt : pos / S < wordCount N S := div_lt_wordCount hN hS hpos
      have h1 : S * (N / S) + N % S = N := Nat.div_add_mod N S
      have h2 : S * (pos / S) + pos % S = pos := Nat.div_add_mod pos S
      have hpd : pos / S = N / S := by
        obtain ⟨u, hu⟩ : ∃ u, u = pos / S := ⟨_, rfl⟩
        obtain ⟨a, ha⟩ : ∃ a, a = N / S := ⟨_, rfl⟩
        rw [← hu] at h0 hdlt ⊢
        rw [← ha] at hWc ⊢
        omega
      have e1 : S * (pos / S) = S * (N / S) := by rw [hpd]
      obtain ⟨a, ha⟩ : ∃ a, a = N % S := ⟨_, rfl⟩
      obtain ⟨b, hb⟩ : ∃ b, b = pos % S := ⟨_, rfl⟩
      obtain ⟨c, hc3⟩ : ∃ c, c = S * (N / S) := ⟨_, rfl⟩
      obtain ⟨d, hd3⟩ : ∃ d, d = S * (pos / S) := ⟨_, rfl⟩
      rw [← ha, ← hc3] at h1
      rw [← hb, ← hd3] at h2
      rw [← hc3, ← hd3] at e1
      rw [← ha, ← hb]
      omega

/-- C6 witness: the constructor test of the suite, width 9 from words
`(1, 101₂)`, read back at position 8. -/
theorem ofWords_roundtrip_witness :
    ((0:Nat) < 9 ∧ (0:Nat) < 8 ∧ 1 < wordCount 9 8
      ∧ ([1, 5] : List Nat).length = wordCount 9 8
      ∧ (∀ w ∈ ([1, 5] : List Nat), w < 2 ^ 8) ∧ (8:Nat) < 9)
    ∧ ((uint_n.ofWords 9 8 [1, 5]).test 8
        = (([1, 5] : List Nat).getD (wordCount 9 8 - 1 - 8 / 8) 0).testBit (8 % 8)
      ∧ (wordCount 9 8 - 1 - 8 / 8 = 0 →
          8 % 8 < (if 9 % 8 = 0 then 8 else 9 % 8))) :=
  ⟨⟨by decide, by decide, by decide, by decide, by decide, by decide⟩,
    ofWords_roundtrip (by decide) (by decide) (by decide) [1, 5] (by decide)
      (by decide) 8 (by decide)⟩

/-- C8 counterexample: the claim says set then unset on the same position
restores the original value of that bit; starting from the width 1 value
with bit 0 already set, set(0) then unset(0) leaves the bit cleared, not
restored. -/
theorem set_then_unset_not_restore :
    ¬ ((((⟨[1]⟩ : uint_n 1 8).setBit 0).unset 0).test 0
        = (⟨[1]⟩ : uint_n 1 8).test 0) := by
  decide

/-- C8 as amended: after `set(pos)`, `test(pos)` is true and every other
position below `N` is unchanged; after `unset(pos)`, `test(pos)` is false
and every other position is unchanged; `set(pos)` followed by `unset(pos)`
leaves bit `pos` cleared (so it restores the original value exactly when
that bit was 0) and every other position unchanged. -/
theorem set_unset_test_frame {N S : Nat} (hN : 0 < N) (hS : 0 < S) (v : uint_n N S)
    (hlen : v.bits.length = wordCount N S) (pos : Nat) (hpos : pos < N) :
    (uint_n.setBit v pos).test pos = true
    ∧ (∀ q, q < N → q ≠ pos → (uint_n.setBit v pos).test q = v.test q)
    ∧ (uint_n.unset v pos).test pos = false
    ∧ (∀ q, q < N → q ≠ pos → (uint_n.unset v pos).test q = v.test q)
    ∧ (∀ q, q < N → ((uint_n.setBit v pos).unset pos).test q
        = if q = pos then false else v.test q) := by
  have hdiv : ∀ p, p < N → p / S < v.bits.length := fun p hp => by
    rw [hlen]; exact div_lt_wordCount hN hS hp
  have hL : 0 < v.bits.length := Nat.lt_of_le_of_lt (Nat.zero_le _) (hdiv pos hpos)
  have hidxlt : ∀ p : Nat, v.bits.length - p / S - 1 < v.bits.length :=
    fun p => Nat.lt_of_le_of_lt (Nat.sub_le_sub_right (Nat.sub_le _ _) 1)
      (Nat.sub_lt hL Nat.one_pos)
  have hmod_ne : ∀ q, q < N → q ≠ pos → q / S = pos / S → q % S ≠ pos % S := by
    intro q hq hne hdq heq
    have h1 : S * (q / S) + q % S = q := Nat.div_add_mod q S
    have h2 : S * (pos / S) + pos % S = pos := Nat.div_add_mod pos S
    have e1 : S * (q / S) = S * (pos / S) := by rw [hdq]
    obtain ⟨c, hc⟩ : ∃ c, c = S * (q / S) := ⟨_, rfl⟩
    obtain ⟨d, hd⟩ : ∃ d, d = S * (pos / S) := ⟨_, rfl⟩
    rw [← hc] at h1 e1
    rw [← hd] at h2 e1
    apply hne
    omega
  have hidx_ne : ∀ q, q < N → q / S ≠ pos / S →
      v.bits.length - q / S - 1 ≠ v.bits.length - pos / S - 1 := by
    intro q hq hdq
    have h1 := hdiv q hq
    have h2 := hdiv pos hpos
    obtain ⟨a, ha⟩ : ∃ a, a = q / S := ⟨_, rfl⟩
    obtain ⟨b, hb⟩ : ∃ b, b = pos / S := ⟨_, rfl⟩
    rw [← ha] at h1 hdq ⊢
    rw [← hb] at h2 hdq ⊢
    omega
  have hset_len : (uint_n.setBit v pos).bits.length = v.bits.length := by
    rw [setBit_bits, List.length_set]
  have hset_pos : (uint_n.setBit v pos).test pos = true := by
    rw [test_getD, hset_len, setBit_bits, getD_set_self _ _ _ (hidxlt pos)]
    exact testBit_or_shl_self _ _
  have hset_frame : ∀ q, q < N → q ≠ pos →
      (uint_n.setBit v pos).test q = v.test q := by
    intro q hq hne
    rw [test_getD, hset_len, setBit_bits, test_getD]
    by_cases hdq : q / S = pos / S
    · rw [hdq, getD_set_self _ _ _ (hidxlt pos)]
      exact testBit_or_shl_ne _ _ _ (Ne.symm (hmod_ne q hq hne hdq))
    · rw [getD_set_ne _ _ _ _ (Ne.symm (hidx_ne q hq hdq))]
  have hunset_len : ∀ w : uint_n N S,
      (uint_n.unset w pos).bits.length = w.bits.length := by
    intro w
    rw [unset_bits, List.length_set]
  have hunset_pos : ∀ w : uint_n N S, w.bits.length = v.bits.length →
      (uint_n.unset w pos).test pos = false := by
    intro w hwlen
    rw [test_getD, hunset_len w, unset_bits, hwlen,
      getD_set_self _ _ _ (by rw [hwlen]; exact hidxlt pos)]
    exact testBit_and_mask_self _ _ _ (Nat.mod_lt _ hS)
  have hunset_frame : ∀ w : uint_n N S, w.bits.length = v.bits.length →
      ∀ q, q < N → q ≠ pos → (uint_n.unset w pos).test q = w.test q := by
    intro w hwlen q hq hne
    rw [test_getD, hunset_len w, unset_bits, test_getD, hwlen]
    by_cases hdq : q / S = pos / S
    · rw [hdq, getD_set_self _ _ _ (by rw [hwlen]; exact hidxlt pos)]
      exact testBit_and_mask_ne _ _ _ _ (Nat.mod_lt _ hS)
        (Ne.symm (hmod_ne q hq hne hdq))
    · rw [getD_set_ne _ _ _ _ (Ne.symm (hidx_ne q hq hdq))]
  refine ⟨hset_pos, hset_frame, hunset_pos v rfl, hunset_frame v rfl, ?_⟩
  intro q hq
  by_cases hqp : q = pos
  · rw [if_pos hqp, hqp]
    exact hunset_pos (uint_n.setBit v pos) hset_len
  · rw [if_neg hqp, hunset_frame (uint_n.setBit v pos) hset_len q hq hqp]
    exact hset_frame q hq hqp

/-- C8 witness: width 11 value at position 3. -/
theorem set_unset_test_frame_witness :
    ((0:Nat) < 11 ∧ (0:Nat) < 8
      ∧ (⟨[5, 138]⟩ : uint_n 11 8).bits.length = wordCount 11 8 ∧ (3:Nat) < 11)
    ∧ (((⟨[5, 138]⟩ : uint_n 11 8).setBit 3).test 3 = true
      ∧ (∀ q, q < 11 → q ≠ 3 →
          ((⟨[5, 138]⟩ : uint_n 11 8).setBit 3).test q
            = (⟨[5, 138]⟩ : uint_n 11 8).test q)
      ∧ ((⟨[5, 138]⟩ : uint_n 11 8).unset 3).test 3 = false
      ∧ (∀ q, q < 11 → q ≠ 3 →
          ((⟨[5, 138]⟩ : uint_n 11 8).unset 3).test q
            = (⟨[5, 138]⟩ : uint_n 11 8).test q)
      ∧ (∀ q, q < 11 → (((⟨[5, 138]⟩ : uint_n 11 8).setBit 3).unset 3).test q
          = if q = 3 then false else (⟨[5, 138]⟩ : uint_n 11 8).test q)) :=
  ⟨⟨by decide, by decide, by decide, by decide⟩,
    set_unset_test_frame (by decide) (by decide) ⟨[5, 138]⟩ (by decide) 3
      (by decide)⟩

/-- C10: under the precondition `pos < N`, the word index computed by
`test`, `set` and `unset` is in bounds: `pos / S` is at most `W - 1`, the
subtraction `W - 1 - pos / S` does not underflow (adding `pos / S` back
recovers `W - 1`), and the storage access hits an existing entry. -/
theorem bit_index_in_bounds {N S : Nat} (hN : 0 < N) (hS : 0 < S) (v : uint_n N S)
    (hlen : v.bits.length = wordCount N S) (pos : Nat) (hpos : pos < N) :
    pos / S ≤ wordCount N S - 1
    ∧ (wordCount N S - 1 - pos / S) + pos / S = wordCount N S - 1
    ∧ v.bits.length - pos / S - 1 < v.bits.length
    ∧ (v.bits.get? (v.bits.length - pos / S - 1)).isSome = true := by
  have hL := wordCount_pos hN hS
  have h1 : pos / S < wordCount N S := div_lt_wordCount hN hS hpos
  obtain ⟨u, hu⟩ : ∃ u, u = pos / S := ⟨_, rfl⟩
  rw [← hu] at h1 ⊢
  refine ⟨by omega, by omega, by rw [hlen]; omega, ?_⟩
  rw [List.get?_eq_getElem?, List.getElem?_eq_getElem (by rw [hlen]; omega)]
  rfl

/-- C10 witness: width 11 over 8 bit words at position 10. -/
theorem bit_index_in_bounds_witness :
    ((0:Nat) < 11 ∧ (0:Nat) < 8
      ∧ (⟨[5, 138]⟩ : uint_n 11 8).bits.length = wordCount 11 8 ∧ (10:Nat) < 11)
    ∧ ((10:Nat) / 8 ≤ wordCount 11 8 - 1
      ∧ (wordCount 11 8 - 1 - 10 / 8) + 10 / 8 = wordCount 11 8 - 1
      ∧ (⟨[5, 138]⟩ : uint_n 11 8).bits.length - 10 / 8 - 1
          < (⟨[5, 138]⟩ : uint_n 11 8).bits.length
      ∧ ((⟨[5, 138]⟩ : uint_n 11 8).bits.get?
          ((⟨[5, 138]⟩ : uint_n 11 8).bits.length - 10 / 8 - 1)).isSome = true) :=
  ⟨⟨by decide, by decide, by decide, by decide⟩,
    bit_index_in_bounds (by decide) (by decide) ⟨[5, 138]⟩ (by decide) 10 (by decide)⟩

end tsl
